import Mathlib

/-!
Verification development for the pairwise-comparison ranking engine
`SimpleTransitiveSession` (src/models.py).

The session state and its operations are embedded shallowly:

* `wins` is the set of derived relations `(winner, loser)`.  The source also
  keeps adjacency dictionaries `adj_fwd` / `adj_rev`; they are mutated in
  lock-step with `wins` at every site (`_add_relation_with_closure`,
  `_rebuild_from_direct`) and always equal its two projections, so the
  embedding keeps the single set and derives the adjacencies (`succs`,
  `preds`) from it.
* `results` (direct results) is an insertion-ordered association list,
  matching Python dict insertion-order iteration used by
  `_rebuild_from_direct`.
* `comp_counts` is a partial map `Nat → Option Int`: the source stores a dict
  with keys `0 .. characters_count - 1`, and `d[k] += 1` on a missing key
  raises `KeyError`.  The fallible increment is modelled by `dincr`/`ddecr`
  returning `Except`.  On such an error the source leaves the mutations made
  earlier in the call in place; the embedding returns the error alone, which
  is all the claims use.  `win_counts` is a dict over the same fixed key set
  `0 .. characters_count - 1`, reset wholesale by `_rebuild_from_direct` and
  incremented only at keys already in the graph or equal to the new winner;
  it is modelled as a total function.
* `learned_preferences` holds Python floats updated in steps of 0.1 with
  clamping; the embedding uses `ℚ` for exact arithmetic.
* The cached current pair (`_current_pair`) and the randomized pair-selection
  policy (`_select_next_pair`, `get_current_pair`, `_sample_unknown`) are not
  modelled: no claim below depends on them, and every operation modelled here
  only resets the cache.  File persistence (`_load_learned_preferences`,
  `_save_learned_preferences`) is modelled as the no-file case (empty table).
-/

/-- `mn, mx = (a, b) if a < b else (b, a)` — canonical unordered-pair key. -/
def canonPair (a b : Nat) : Nat × Nat :=
  if a < b then (a, b) else (b, a)

/-- Errors a call can raise: `ValueError("winner must be one of pair")` and
Python `KeyError` from a counter-dict access on a missing key. -/
inductive RecErr where
  | invalidWinner
  | keyError
deriving DecidableEq

/-- Dict lookup on the insertion-ordered association list of direct results. -/
def rlookup : List ((Nat × Nat) × Nat) → (Nat × Nat) → Option Nat
  | [], _ => none
  | e :: rest, k => if e.1 = k then some e.2 else rlookup rest k

/-- `d[k] += 1` on a Python dict: `KeyError` when the key is absent. -/
def dincr (d : Nat → Option Int) (k : Nat) : Except RecErr (Nat → Option Int) :=
  match d k with
  | some v => Except.ok (fun j => if j = k then some (v + 1) else d j)
  | none => Except.error RecErr.keyError

/-- `d[k] -= 1` on a Python dict: `KeyError` when the key is absent. -/
def ddecr (d : Nat → Option Int) (k : Nat) : Except RecErr (Nat → Option Int) :=
  match d k with
  | some v => Except.ok (fun j => if j = k then some (v - 1) else d j)
  | none => Except.error RecErr.keyError

/-- Store `d[k] = v` in the learned-preference table. -/
def lpSet (lp : (Nat × Nat) → Option ℚ) (k : Nat × Nat) (v : ℚ) :
    (Nat × Nat) → Option ℚ :=
  fun j => if j = k then some v else lp j

/-- The state of `SimpleTransitiveSession`. -/
structure Session where
  characters_count : Nat
  max_comparisons : Option Nat
  wins : Finset (Nat × Nat)
  results : List ((Nat × Nat) × Nat)
  win_counts : Nat → Nat
  comp_counts : Nat → Option Int
  comparisons_made : Int
  new_characters_only : Bool
  new_character_indices : Finset Nat
  choice_history : List ((Nat × Nat) × Nat)
  unknown_pairs : Finset (Nat × Nat)
  learned_preferences : (Nat × Nat) → Option ℚ

/-- `adj_fwd[x]` — the losers recorded against `x` in the closure. -/
def succs (w : Finset (Nat × Nat)) (x : Nat) : Finset Nat :=
  (w.filter (fun e => e.1 = x)).image (fun e => e.2)

/-- `adj_rev[x]` — the winners recorded over `x` in the closure. -/
def preds (w : Finset (Nat × Nat)) (x : Nat) : Finset Nat :=
  (w.filter (fun e => e.2 = x)).image (fun e => e.1)

/-- One round of the breadth-first traversal: add every neighbour of the set. -/
def expandF (f : Nat → Finset Nat) (s : Finset Nat) : Finset Nat :=
  s ∪ s.biUnion f

/-- Iterate the frontier expansion; with enough fuel this is exactly the set
of nodes the source's BFS queue visits. -/
def iterF (f : Nat → Finset Nat) : Nat → Finset Nat → Finset Nat
  | 0, s => s
  | n + 1, s => iterF f n (expandF f s)

/-- `_collect_ancestors_inclusive`: BFS over `adj_rev` from `x`, inclusive.
Fuel `2 * w.card + 1` exceeds the number of nodes occurring in `w` plus one,
so the iteration reaches its fixed point, the BFS-reachable set. -/
def collect_ancestors_inclusive (w : Finset (Nat × Nat)) (x : Nat) : Finset Nat :=
  iterF (preds w) (2 * w.card + 1) {x}

/-- `_collect_descendants_inclusive`: BFS over `adj_fwd` from `x`, inclusive. -/
def collect_descendants_inclusive (w : Finset (Nat × Nat)) (x : Nat) : Finset Nat :=
  iterF (succs w) (2 * w.card + 1) {x}

/-- The set of pairs the loop body of `_add_relation_with_closure` inserts:
`(a, b)` over `a ∈ Anc(u)`, `b ∈ Desc(v)` with `a ≠ b` and `(a, b)` not yet
present. -/
def closure_added (w : Finset (Nat × Nat)) (u v : Nat) : Finset (Nat × Nat) :=
  ((collect_ancestors_inclusive w u) ×ˢ (collect_descendants_inclusive w v)).filter
    (fun e => e.1 ≠ e.2 ∧ e ∉ w)

/-- `_add_relation_with_closure(u, v)` acting on the triple it mutates:
the closure set, the per-item win counters (`win_counts[a] += 1` once per
inserted edge out of `a`) and the unknown-pair frontier
(`_unknown_pairs.discard((min, max))` for each inserted edge). -/
def add_relation_with_closure (w : Finset (Nat × Nat)) (wc : Nat → Nat)
    (unk : Finset (Nat × Nat)) (u v : Nat) :
    Finset (Nat × Nat) × (Nat → Nat) × Finset (Nat × Nat) :=
  (w ∪ closure_added w u v,
   fun a => wc a + ((closure_added w u v).filter (fun e => e.1 = a)).card,
   unk \ (closure_added w u v).image (fun e => canonPair e.1 e.2))

/-- `_reachable(src, dst)`: `src == dst` or `(src, dst)` in the closure. -/
def reachable (w : Finset (Nat × Nat)) (src dst : Nat) : Prop :=
  src = dst ∨ (src, dst) ∈ w

instance (w : Finset (Nat × Nat)) (src dst : Nat) : Decidable (reachable w src dst) := by
  unfold reachable
  exact inferInstance

/-- `learn_from_choice(pair, winner)`:  validate, initialise both ordered keys
to the neutral 0.5 when absent, then nudge the winner's key up and the
loser's key down by the 0.1 learning rate, clamped to `[0, 1]`.  The reads
`self.learned_preferences[key]` hit keys that were just initialised, so the
`getD` default is never used.  The source always receives a 2-tuple, so the
`len(pair) != 2` guard is vacuous here. -/
def learn_from_choice (count : Nat) (lp : (Nat × Nat) → Option ℚ)
    (pair : Nat × Nat) (winner : Nat) : (Nat × Nat) → Option ℚ :=
  let a := pair.1
  let b := pair.2
  if ¬(a < count ∧ b < count) then lp
  else if ¬(winner = a ∨ winner = b) then lp
  else
    let lp0 := if (lp (a, b)).isSome then lp else lpSet lp (a, b) (1 / 2)
    let lp1 := if (lp0 (b, a)).isSome then lp0 else lpSet lp0 (b, a) (1 / 2)
    if winner = a then
      let lp2 := lpSet lp1 (a, b) (min 1 ((lp1 (a, b)).getD (1 / 2) + 1 / 10))
      lpSet lp2 (b, a) (max 0 ((lp2 (b, a)).getD (1 / 2) - 1 / 10))
    else
      let lp2 := lpSet lp1 (b, a) (min 1 ((lp1 (b, a)).getD (1 / 2) + 1 / 10))
      lpSet lp2 (a, b) (max 0 ((lp2 (a, b)).getD (1 / 2) - 1 / 10))

/-- `record_choice(pair, winner)`.  Branches in source order: `None` pair,
invalid winner, already-answered pair, relation already known transitively,
conflicting (cycle-creating) answer, and the clean insertion that propagates
the closure.  The three recording branches perform the same bookkeeping
(direct result, `comparisons_made`, `comp_counts`, history, learning model);
only the clean branch touches the graph. -/
def record_choice (s : Session) (pair : Option (Nat × Nat)) (winner : Nat) :
    Except RecErr Session :=
  match pair with
  | none => Except.ok s
  | some (a, b) =>
    if ¬(winner = a ∨ winner = b) then Except.error RecErr.invalidWinner
    else
      let mnmx := canonPair a b
      if (rlookup s.results mnmx).isSome then Except.ok s
      else
        let loser := if winner = a then b else a
        if (winner, loser) ∈ s.wins then
          match dincr s.comp_counts a with
          | Except.error e => Except.error e
          | Except.ok cc1 =>
            match dincr cc1 b with
            | Except.error e => Except.error e
            | Except.ok cc2 =>
              Except.ok { s with
                results := s.results ++ [(mnmx, winner)]
                comparisons_made := s.comparisons_made + 1
                comp_counts := cc2
                choice_history := s.choice_history ++ [(mnmx, winner)]
                learned_preferences :=
                  learn_from_choice s.characters_count s.learned_preferences mnmx winner
                unknown_pairs := s.unknown_pairs.erase mnmx }
        else if reachable s.wins loser winner then
          match dincr s.comp_counts a with
          | Except.error e => Except.error e
          | Except.ok cc1 =>
            match dincr cc1 b with
            | Except.error e => Except.error e
            | Except.ok cc2 =>
              Except.ok { s with
                results := s.results ++ [(mnmx, winner)]
                comparisons_made := s.comparisons_made + 1
                comp_counts := cc2
                choice_history := s.choice_history ++ [(mnmx, winner)]
                learned_preferences :=
                  learn_from_choice s.characters_count s.learned_preferences mnmx winner
                unknown_pairs := s.unknown_pairs.erase mnmx }
        else
          match dincr s.comp_counts a with
          | Except.error e => Except.error e
          | Except.ok cc1 =>
            match dincr cc1 b with
            | Except.error e => Except.error e
            | Except.ok cc2 =>
              let t := add_relation_with_closure s.wins s.win_counts
                s.unknown_pairs winner loser
              Except.ok { s with
                results := s.results ++ [(mnmx, winner)]
                comparisons_made := s.comparisons_made + 1
                comp_counts := cc2
                choice_history := s.choice_history ++ [(mnmx, winner)]
                learned_preferences :=
                  learn_from_choice s.characters_count s.learned_preferences mnmx winner
                wins := t.1
                win_counts := t.2.1
                unknown_pairs := t.2.2 }

/-- One iteration of the replay loop of `_rebuild_from_direct`: skip a direct
result whose acceptance would close a cycle, otherwise insert it with closure
propagation. -/
def rebuild_step (t : Finset (Nat × Nat) × (Nat → Nat) × Finset (Nat × Nat))
    (e : (Nat × Nat) × Nat) :
    Finset (Nat × Nat) × (Nat → Nat) × Finset (Nat × Nat) :=
  let mn := e.1.1
  let mx := e.1.2
  let winner := e.2
  let loser := if winner = mn then mx else mn
  if reachable t.1 loser winner then t
  else add_relation_with_closure t.1 t.2.1 t.2.2 winner loser

/-- `_rebuild_from_direct`: clear the graph and the win counters, replay every
remaining direct result in insertion order through the accept-or-skip logic,
then remove from the unknown set every pair that is now known.  The win
counters are a dict over the fixed keys `0 .. characters_count - 1`, reset to
zero; the count parameter is kept for shape. -/
def rebuild_from_direct (_characters_count : Nat)
    (results : List ((Nat × Nat) × Nat)) (unknown : Finset (Nat × Nat)) :
    Finset (Nat × Nat) × (Nat → Nat) × Finset (Nat × Nat) :=
  let t := results.foldl rebuild_step (∅, fun _ => 0, unknown)
  (t.1, t.2.1,
   t.2.2.filter (fun p => ¬((p.1, p.2) ∈ t.1 ∨ (p.2, p.1) ∈ t.1)))

/-- `undo_last_choice()`: `False` on empty history; otherwise pop the last
`(pair, winner)`, delete its direct result, decrement the comparison
accounting, rebuild graph and frontier from the remaining direct results and
put the undone pair back into the unknown set when it is no longer known.
(The source also computes the loser of the popped entry but never uses it.) -/
def undo_last_choice (s : Session) : Except RecErr (Bool × Session) :=
  match s.choice_history.getLast? with
  | none => Except.ok (false, s)
  | some ((mn, mx), _winner) =>
    let a := mn
    let b := mx
    let results1 := s.results.filter (fun e => decide (e.1 ≠ (mn, mx)))
    match ddecr s.comp_counts a with
    | Except.error e => Except.error e
    | Except.ok cc1 =>
      match ddecr cc1 b with
      | Except.error e => Except.error e
      | Except.ok cc2 =>
        let t := rebuild_from_direct s.characters_count results1 s.unknown_pairs
        let unk1 :=
          if (a, b) ∉ t.1 ∧ (b, a) ∉ t.1 then insert (a, b) t.2.2 else t.2.2
        Except.ok (true, { s with
          choice_history := s.choice_history.dropLast
          results := results1
          comparisons_made := s.comparisons_made - 1
          comp_counts := cc2
          wins := t.1
          win_counts := t.2.1
          unknown_pairs := unk1 })

/-- `peek_last_pair()`. -/
def peek_last_pair (s : Session) : Option (Nat × Nat) :=
  (s.choice_history.getLast?).map (fun e => e.1)

/-- `is_completed`: budget set and used up, or no unknown pairs left. -/
def is_completed (s : Session) : Bool :=
  match s.max_comparisons with
  | some m =>
    if s.comparisons_made ≥ (m : Int) then true else decide (s.unknown_pairs = ∅)
  | none => decide (s.unknown_pairs = ∅)

/-- `get_learned_preference(a, b)`: neutral 0.5 for out-of-range or equal
indices, otherwise the stored value with the 0.5 default. -/
def get_learned_preference (s : Session) (a b : Nat) : ℚ :=
  if ¬(a < s.characters_count ∧ b < s.characters_count) then 1 / 2
  else if a = b then 1 / 2
  else (s.learned_preferences (a, b)).getD (1 / 2)

/-- The comparison Python's `sorted(..., reverse=True)` realises on the
distinct `(win_count, index)` tuples: descending lexicographic order. -/
def descGe (x y : Nat × Nat) : Bool :=
  decide (y.1 < x.1) || (decide (x.1 = y.1) && decide (y.2 ≤ x.2))

/-- `calculate_scores()`: `sorted([(win_counts[idx], idx) for idx in
range(count)], reverse=True)`.  The tuples are pairwise distinct (distinct
indices), so the stable reverse sort produces exactly the descending
lexicographic arrangement. -/
def calculate_scores (s : Session) : List (Nat × Nat) :=
  ((List.range s.characters_count).map (fun idx => (s.win_counts idx, idx))).mergeSort
    descGe

/-- `__init__`: empty graph and accounting, the unknown-pair universe
restricted to the designated indices in "new characters only" mode, and the
full `a < b` universe otherwise.  `learned_preferences` starts empty (the
no-preference-file case). -/
def session_init (characters_count : Nat) (max_comparisons : Option Nat)
    (new_characters_only : Bool) (new_character_indices : Finset Nat) : Session :=
  { characters_count := characters_count
    max_comparisons := max_comparisons
    wins := ∅
    results := []
    win_counts := fun _ => 0
    comp_counts := fun i => if i < characters_count then some 0 else none
    comparisons_made := 0
    new_characters_only := new_characters_only
    new_character_indices := new_character_indices
    choice_history := []
    unknown_pairs :=
      if new_characters_only ∧ new_character_indices.Nonempty then
        new_character_indices.biUnion
          (fun a => ((Finset.range characters_count).erase a).image
            (fun b => canonPair a b))
      else
        (Finset.range characters_count ×ˢ Finset.range characters_count).filter
          (fun p => p.1 < p.2)
    learned_preferences := fun _ => none }

/-- `create_new(characters_count, max_comparisons)`. -/
def create_new (characters_count : Nat) (max_comparisons : Option Nat) : Session :=
  session_init characters_count max_comparisons false ∅

/-- `create_new_characters_session`. -/
def create_new_characters_session (characters_count : Nat)
    (new_character_indices : Finset Nat) (max_comparisons : Option Nat) : Session :=
  session_init characters_count max_comparisons true new_character_indices

/-- Run a sequence of `record_choice` calls, stopping at the first error. -/
def run_choices (s : Session) : List (Option (Nat × Nat) × Nat) → Except RecErr Session
  | [] => Except.ok s
  | c :: cs =>
    match record_choice s c.1 c.2 with
    | Except.error e => Except.error e
    | Except.ok s' => run_choices s' cs

/-- Extract the resulting session of a successful call (default otherwise). -/
def stateOf (e : Except RecErr Session) (d : Session) : Session :=
  match e with
  | Except.ok s => s
  | Except.error _ => d

/-- Extract the resulting session of a successful undo (default otherwise). -/
def undoStateOf (e : Except RecErr (Bool × Session)) (d : Session) : Session :=
  match e with
  | Except.ok p => p.2
  | Except.error _ => d

/-- The wins-set projection of the rebuild replay, used to state the
session invariant "the graph is the replay of the direct results". -/
def replay_step (w : Finset (Nat × Nat)) (e : (Nat × Nat) × Nat) :
    Finset (Nat × Nat) :=
  let loser := if e.2 = e.1.1 then e.1.2 else e.1.1
  if reachable w loser e.2 then w else w ∪ closure_added w e.2 loser

/-- Replay the direct results from the empty graph (wins projection). -/
def replay_wins (rs : List ((Nat × Nat) × Nat)) : Finset (Nat × Nat) :=
  rs.foldl replay_step ∅

/-- No self-relation in the derived graph. -/
def IrreflW (w : Finset (Nat × Nat)) : Prop := ∀ a, (a, a) ∉ w

/-- The derived graph never holds a relation in both directions. -/
def AsymW (w : Finset (Nat × Nat)) : Prop := ∀ a b, (a, b) ∈ w → (b, a) ∉ w

/-- The derived graph is transitively closed. -/
def TransW (w : Finset (Nat × Nat)) : Prop :=
  ∀ a b c, (a, b) ∈ w → (b, c) ∈ w → (a, c) ∈ w

/-- Frontier/graph/results relationship over the in-range pair universe. -/
def FrontierInv (s : Session) : Prop :=
  ∀ a b, a < b → b < s.characters_count →
    ((a, b) ∈ s.unknown_pairs ↔
      rlookup s.results (a, b) = none ∧ (a, b) ∉ s.wins ∧ (b, a) ∉ s.wins)

/-- The session invariant maintained by every successful `record_choice`. -/
def SInv (s : Session) : Prop :=
  IrreflW s.wins ∧ AsymW s.wins ∧ TransW s.wins ∧
    replay_wins s.results = s.wins ∧ FrontierInv s

/-- Scenario sessions (spec §8).  Scenario A: `N = 3`, budget 3, record
`(0,1) → 0` then `(1,2) → 1`.  Scenario B continues with `(0,2) → 2`. -/
def sessionA0 : Session := create_new 3 (some 3)

def csA : List (Option (Nat × Nat) × Nat) := [(some (0, 1), 0), (some (1, 2), 1)]

def sA : Session := stateOf (run_choices sessionA0 csA) sessionA0

def sB : Session := stateOf (record_choice sA (some (0, 2)) 2) sA

/-- Undo scenario: `N = 3`, no budget; record `(0,1) → 0`, then `(1,2) → 1`,
then undo. -/
def sessionU0 : Session := create_new 3 none

def u1 : Session := stateOf (run_choices sessionU0 [(some (0, 1), 0)]) sessionU0

def u2 : Session := stateOf (record_choice u1 (some (1, 2)) 1) u1

def u3 : Session := undoStateOf (undo_last_choice u2) u2

/-- Budget scenario: `N = 2`, budget 3; one comparison settles the only pair
and empties the frontier before the budget is reached. -/
def sC7 : Session :=
  stateOf (run_choices (create_new 2 (some 3)) [(some (0, 1), 0)])
    (create_new 2 (some 3))

/-- First-call state for the idempotence witness is `u1`; the conflict
scenario uses `sA`/`sB` above. -/
def fresh3 : Session := create_new 3 (some 3)

/-! ### Association-list and canonical-pair lemmas -/

theorem rlookup_append_of_ne {rs : List ((Nat × Nat) × Nat)} {k k' : Nat × Nat}
    {v : Nat} (h : k' ≠ k) : rlookup (rs ++ [(k, v)]) k' = rlookup rs k' := by
  induction rs with
  | nil => simp [rlookup, Ne.symm h]
  | cons e rest ih =>
    simp only [List.cons_append, rlookup]
    split <;> simp [ih]

theorem rlookup_append_self {rs : List ((Nat × Nat) × Nat)} {k : Nat × Nat}
    {v : Nat} (h : rlookup rs k = none) : rlookup (rs ++ [(k, v)]) k = some v := by
  induction rs with
  | nil => simp [rlookup]
  | cons e rest ih =>
    simp only [rlookup] at h
    simp only [List.cons_append, rlookup]
    rcases Decidable.em (e.1 = k) with he | he
    · simp [he] at h
    · simp only [he, if_false]
      exact ih (by simpa [he] using h)

theorem filter_of_rlookup_none {rs : List ((Nat × Nat) × Nat)} {k : Nat × Nat}
    (h : rlookup rs k = none) : rs.filter (fun e => decide (e.1 ≠ k)) = rs := by
  induction rs with
  | nil => rfl
  | cons e rest ih =>
    simp only [rlookup] at h
    rcases Decidable.em (e.1 = k) with he | he
    · simp [he] at h
    · have h' : rlookup rest k = none := by simpa [he] using h
      have hd : decide (e.1 ≠ k) = true := by simp [he]
      rw [List.filter_cons, if_pos hd, ih h']

theorem canonPair_comm (x y : Nat) : canonPair x y = canonPair y x := by
  unfold canonPair
  rcases Nat.lt_trichotomy x y with h | h | h
  · simp [h, Nat.not_lt_of_lt h]
  · simp [h]
  · simp [h, Nat.not_lt_of_lt h]

theorem canonPair_eq_iff {a b x y : Nat} (hab : a < b) :
    canonPair x y = (a, b) ↔ (x = a ∧ y = b) ∨ (x = b ∧ y = a) := by
  unfold canonPair
  rcases Decidable.em (x < y) with h | h
  · rw [if_pos h]
    constructor
    · intro he
      exact Or.inl ⟨congrArg Prod.fst he, congrArg Prod.snd he⟩
    · rintro (⟨hx, hy⟩ | ⟨hx, hy⟩)
      · simp [hx, hy]
      · subst hx; subst hy; exact absurd h (Nat.lt_asymm hab)
  · rw [if_neg h]
    constructor
    · intro he
      exact Or.inr ⟨congrArg Prod.snd he, congrArg Prod.fst he⟩
    · rintro (⟨hx, hy⟩ | ⟨hx, hy⟩)
      · subst hx; subst hy; exact absurd hab h
      · simp [hx, hy]

theorem canonPair_loser {a b winner : Nat} (hw : winner = a ∨ winner = b) :
    (if winner = (canonPair a b).1 then (canonPair a b).2 else (canonPair a b).1) =
      (if winner = a then b else a) := by
  rcases Decidable.em (a = b) with hab | hab
  · subst hab; simp [canonPair]
  · unfold canonPair
    rcases Decidable.em (a < b) with hl | hl
    · rw [if_pos hl]
    · rw [if_neg hl]
      rcases hw with hw | hw
      · subst hw; simp [hab]
      · subst hw; simp [Ne.symm hab]

/-- The canonical image of an edge set, at a canonical key. -/
theorem mem_image_canon {t : Finset (Nat × Nat)} {a b : Nat} (hab : a < b) :
    (a, b) ∈ t.image (fun e => canonPair e.1 e.2) ↔ (a, b) ∈ t ∨ (b, a) ∈ t := by
  rw [Finset.mem_image]
  constructor
  · rintro ⟨e, he, hc⟩
    rcases (canonPair_eq_iff hab).1 hc with ⟨h1, h2⟩ | ⟨h1, h2⟩
    · left
      have : e = (a, b) := Prod.ext h1 h2
      exact this ▸ he
    · right
      have : e = (b, a) := Prod.ext h1 h2
      exact this ▸ he
  · rintro (h | h)
    · exact ⟨(a, b), h, (canonPair_eq_iff hab).2 (Or.inl ⟨rfl, rfl⟩)⟩
    · exact ⟨(b, a), h, (canonPair_eq_iff hab).2 (Or.inr ⟨rfl, rfl⟩)⟩

/-! ### BFS traversal on a transitively closed graph -/

theorem mem_preds {w : Finset (Nat × Nat)} {x y : Nat} :
    y ∈ preds w x ↔ (y, x) ∈ w := by
  unfold preds
  rw [Finset.mem_image]
  constructor
  · rintro ⟨e, he, rfl⟩
    rw [Finset.mem_filter] at he
    have : e = (e.1, x) := Prod.ext rfl he.2
    exact this ▸ he.1
  · intro h
    exact ⟨(y, x), Finset.mem_filter.2 ⟨h, rfl⟩, rfl⟩

theorem mem_succs {w : Finset (Nat × Nat)} {x y : Nat} :
    y ∈ succs w x ↔ (x, y) ∈ w := by
  unfold succs
  rw [Finset.mem_image]
  constructor
  · rintro ⟨e, he, rfl⟩
    rw [Finset.mem_filter] at he
    have : e = (x, e.2) := Prod.ext he.2 rfl
    exact this ▸ he.1
  · intro h
    exact ⟨(x, y), Finset.mem_filter.2 ⟨h, rfl⟩, rfl⟩

theorem iterF_of_fixed {f : Nat → Finset Nat} {s : Finset Nat}
    (h : expandF f s = s) : ∀ n, iterF f n s = s := by
  intro n
  induction n with
  | zero => rfl
  | succ n ih => rw [iterF, h, ih]

theorem expandF_singleton (f : Nat → Finset Nat) (u : Nat) :
    expandF f {u} = insert u (f u) := by
  rw [expandF, Finset.singleton_biUnion, Finset.insert_eq]

theorem expandF_fixed_of_closed {f : Nat → Finset Nat} {u : Nat}
    (h : ∀ y ∈ insert u (f u), f y ⊆ insert u (f u)) :
    expandF f (insert u (f u)) = insert u (f u) := by
  rw [expandF, Finset.union_eq_left]
  rw [Finset.biUnion_subset]
  exact h

theorem collect_ancestors_char {w : Finset (Nat × Nat)} (hT : TransW w) (u x : Nat) :
    x ∈ collect_ancestors_inclusive w u ↔ (x = u ∨ (x, u) ∈ w) := by
  have hsub : ∀ y ∈ insert u (preds w u), preds w y ⊆ insert u (preds w u) := by
    intro y hy z hz
    rcases Finset.mem_insert.1 hy with rfl | hy
    · exact Finset.mem_insert_of_mem hz
    · rw [mem_preds] at hy hz
      exact Finset.mem_insert_of_mem (mem_preds.2 (hT _ _ _ hz hy))
  have h1 : expandF (preds w) {u} = insert u (preds w u) := expandF_singleton _ _
  have h2 := expandF_fixed_of_closed hsub
  unfold collect_ancestors_inclusive
  rw [iterF, h1, iterF_of_fixed h2]
  rw [Finset.mem_insert, mem_preds]

theorem collect_descendants_char {w : Finset (Nat × Nat)} (hT : TransW w) (v x : Nat) :
    x ∈ collect_descendants_inclusive w v ↔ (x = v ∨ (v, x) ∈ w) := by
  have hsub : ∀ y ∈ insert v (succs w v), succs w y ⊆ insert v (succs w v) := by
    intro y hy z hz
    rcases Finset.mem_insert.1 hy with rfl | hy
    · exact Finset.mem_insert_of_mem hz
    · rw [mem_succs] at hy hz
      exact Finset.mem_insert_of_mem (mem_succs.2 (hT _ _ _ hy hz))
  have h1 : expandF (succs w) {v} = insert v (succs w v) := expandF_singleton _ _
  have h2 := expandF_fixed_of_closed hsub
  unfold collect_descendants_inclusive
  rw [iterF, h1, iterF_of_fixed h2]
  rw [Finset.mem_insert, mem_succs]

/-! ### The closure-insertion step -/

theorem mem_closure_union {w : Finset (Nat × Nat)} (hT : TransW w) {u v x y : Nat} :
    (x, y) ∈ w ∪ closure_added w u v ↔
      ((x, y) ∈ w ∨
        ((x = u ∨ (x, u) ∈ w) ∧ (y = v ∨ (v, y) ∈ w) ∧ x ≠ y)) := by
  rw [Finset.mem_union]
  unfold closure_added
  rw [Finset.mem_filter, Finset.mem_product]
  constructor
  · rintro (h | ⟨⟨ha, hd⟩, hne, _⟩)
    · exact Or.inl h
    · exact Or.inr ⟨(collect_ancestors_char hT u x).1 ha,
        (collect_descendants_char hT v y).1 hd, hne⟩
  · rintro (h | ⟨ha, hd, hne⟩)
    · exact Or.inl h
    · rcases Decidable.em ((x, y) ∈ w) with hw | hw
      · exact Or.inl hw
      · exact Or.inr ⟨⟨(collect_ancestors_char hT u x).2 ha,
          (collect_descendants_char hT v y).2 hd⟩, hne, hw⟩

theorem closure_union_irrefl {w : Finset (Nat × Nat)} (hI : IrreflW w) (hT : TransW w)
    (u v : Nat) : IrreflW (w ∪ closure_added w u v) := by
  intro a ha
  rcases (mem_closure_union hT).1 ha with h | ⟨_, _, hne⟩
  · exact hI a h
  · exact hne rfl

theorem closure_union_trans {w : Finset (Nat × Nat)} (hT : TransW w)
    {u v : Nat} (hvu : (v, u) ∉ w) (hne : v ≠ u) :
    TransW (w ∪ closure_added w u v) := by
  have chain : ∀ p, (p = u ∨ (p, u) ∈ w) → (p = v ∨ (v, p) ∈ w) → False := by
    rintro p (rfl | hp) (hp' | hp')
    · exact hne hp'.symm
    · exact hvu hp'
    · subst hp'; exact hvu hp
    · exact hvu (hT _ _ _ hp' hp)
  intro x y z hxy hyz
  rw [mem_closure_union hT] at hxy hyz ⊢
  rcases hxy with hxy | ⟨hxA, hyD, hxyne⟩
  · rcases hyz with hyz | ⟨hyA, hzD, hyzne⟩
    · exact Or.inl (hT _ _ _ hxy hyz)
    · -- x→y in w, y ancestor of u, z descendant of v
      have hxA : x = u ∨ (x, u) ∈ w := by
        rcases hyA with rfl | hyA
        · exact Or.inr hxy
        · exact Or.inr (hT _ _ _ hxy hyA)
      refine Or.inr ⟨hxA, hzD, ?_⟩
      rintro rfl
      exact chain x hxA hzD
  · rcases hyz with hyz | ⟨hyA, hzD, hyzne⟩
    · -- x ancestor, y descendant, y→z in w
      have hzD : z = v ∨ (v, z) ∈ w := by
        rcases hyD with rfl | hyD
        · exact Or.inr hyz
        · exact Or.inr (hT _ _ _ hyD hyz)
      refine Or.inr ⟨hxA, hzD, ?_⟩
      rintro rfl
      exact chain x hxA hzD
    · -- both new: y is both a descendant of v and an ancestor of u
      exact absurd (chain y hyA hyD) (fun h => h)

theorem closure_union_asym {w : Finset (Nat × Nat)} (hT : TransW w) (hA : AsymW w)
    {u v : Nat} (hvu : (v, u) ∉ w) (hne : v ≠ u) :
    AsymW (w ∪ closure_added w u v) := by
  have chain : ∀ p, (p = u ∨ (p, u) ∈ w) → (p = v ∨ (v, p) ∈ w) → False := by
    rintro p (rfl | hp) (hp' | hp')
    · exact hne hp'.symm
    · exact hvu hp'
    · subst hp'; exact hvu hp
    · exact hvu (hT _ _ _ hp' hp)
  intro a b hab hba
  rw [mem_closure_union hT] at hab hba
  rcases hab with hab | ⟨haA, hbD, habne⟩
  · rcases hba with hba | ⟨hbA, haD, hbane⟩
    · exact hA _ _ hab hba
    · -- a→b in w, b ancestor of u, a descendant of v: v ⇝ a → b ⇝ u
      have hbu : b = u ∨ (b, u) ∈ w := hbA
      have hav : a = v ∨ (v, a) ∈ w := haD
      have hau : a = u ∨ (a, u) ∈ w := by
        rcases hbu with rfl | hbu
        · exact Or.inr hab
        · exact Or.inr (hT _ _ _ hab hbu)
      exact chain a hau hav
  · rcases hba with hba | ⟨hbA, haD, hbane⟩
    · -- b→a in w, a ancestor of u, b descendant of v
      have hau : a = u ∨ (a, u) ∈ w := haA
      have hbv : b = v ∨ (v, b) ∈ w := hbD
      have hbu : b = u ∨ (b, u) ∈ w := by
        rcases hau with rfl | hau
        · exact Or.inr hba
        · exact Or.inr (hT _ _ _ hba hau)
      exact chain b hbu hbv
    · exact chain b hbA hbD

theorem closure_union_noop {w : Finset (Nat × Nat)} (hT : TransW w)
    {u v : Nat} (huv : (u, v) ∈ w) : w ∪ closure_added w u v = w := by
  rw [Finset.union_eq_left]
  intro e he
  unfold closure_added at he
  rw [Finset.mem_filter, Finset.mem_product] at he
  obtain ⟨⟨ha, hd⟩, _, hnw⟩ := he
  rw [collect_ancestors_char hT] at ha
  rw [collect_descendants_char hT] at hd
  exfalso
  apply hnw
  have h1 : (e.1, v) ∈ w := by
    rcases ha with rfl | ha
    · exact huv
    · exact hT _ _ _ ha huv
  have h2 : (e.1, e.2) ∈ w := by
    rcases hd with rfl | hd
    · exact h1
    · exact hT _ _ _ h1 hd
  exact h2

/-- Inversion of a successful `record_choice` on a not-yet-answered pair:
the three recording branches share their bookkeeping, and the graph either
stays (already-known or conflicting answer) or gains the propagated closure
of the new edge. -/
theorem record_ok_inv {s s' : Session} {a b winner : Nat}
    (hw : winner = a ∨ winner = b)
    (hres : rlookup s.results (canonPair a b) = none)
    (hrec : record_choice s (some (a, b)) winner = Except.ok s') :
    s'.characters_count = s.characters_count ∧
    s'.max_comparisons = s.max_comparisons ∧
    s'.results = s.results ++ [(canonPair a b, winner)] ∧
    s'.choice_history = s.choice_history ++ [(canonPair a b, winner)] ∧
    s'.comparisons_made = s.comparisons_made + 1 ∧
    (s'.comp_counts a).isSome = true ∧ (s'.comp_counts b).isSome = true ∧
    s'.learned_preferences =
      learn_from_choice s.characters_count s.learned_preferences
        (canonPair a b) winner ∧
    (((winner, if winner = a then b else a) ∈ s.wins ∨
        reachable s.wins (if winner = a then b else a) winner) ∧
      s'.wins = s.wins ∧ s'.win_counts = s.win_counts ∧
      s'.unknown_pairs = s.unknown_pairs.erase (canonPair a b) ∨
     ((winner, if winner = a then b else a) ∉ s.wins ∧
      ¬reachable s.wins (if winner = a then b else a) winner ∧
      s'.wins = s.wins ∪ closure_added s.wins winner
        (if winner = a then b else a) ∧
      s'.unknown_pairs = s.unknown_pairs \
        (closure_added s.wins winner (if winner = a then b else a)).image
          (fun e => canonPair e.1 e.2))) := by
  simp only [record_choice, hres, Option.isSome_none, Bool.false_eq_true, if_false,
    not_not_intro hw, not_true, not_false_eq_true, if_true] at hrec
  generalize hl : (if winner = a then b else a) = loser at hrec ⊢
  split at hrec
  case isTrue h1 =>
    rcases hca : s.comp_counts a with _ | ca
    · simp only [dincr, hca] at hrec
      exact Except.noConfusion hrec
    · simp only [dincr, hca] at hrec
      rcases hcb : (if b = a then some (ca + 1) else s.comp_counts b) with _ | cb
      · rw [hcb] at hrec
        simp at hrec
      · rw [hcb] at hrec
        simp only [Except.ok.injEq] at hrec
        subst hrec
        refine ⟨rfl, rfl, rfl, rfl, rfl, ?_, ?_, rfl,
          Or.inl ⟨Or.inl h1, rfl, rfl, rfl⟩⟩
        · rcases Decidable.em (a = b) with hab | hab
          · simp [hab]
          · simp [hab, hca]
        · simp
  case isFalse h1 =>
    split at hrec
    case isTrue h2 =>
      rcases hca : s.comp_counts a with _ | ca
      · simp only [dincr, hca] at hrec
        exact Except.noConfusion hrec
      · simp only [dincr, hca] at hrec
        rcases hcb : (if b = a then some (ca + 1) else s.comp_counts b) with _ | cb
        · rw [hcb] at hrec
          simp at hrec
        · rw [hcb] at hrec
          simp only [Except.ok.injEq] at hrec
          subst hrec
          refine ⟨rfl, rfl, rfl, rfl, rfl, ?_, ?_, rfl,
            Or.inl ⟨Or.inr h2, rfl, rfl, rfl⟩⟩
          · rcases Decidable.em (a = b) with hab | hab
            · simp [hab]
            · simp [hab, hca]
          · simp
    case isFalse h2 =>
      rcases hca : s.comp_counts a with _ | ca
      · simp only [dincr, hca] at hrec
        exact Except.noConfusion hrec
      · simp only [dincr, hca] at hrec
        rcases hcb : (if b = a then some (ca + 1) else s.comp_counts b) with _ | cb
        · rw [hcb] at hrec
          simp at hrec
        · rw [hcb] at hrec
          simp only [Except.ok.injEq] at hrec
          subst hrec
          refine ⟨rfl, rfl, rfl, rfl, rfl, ?_, ?_, rfl,
            Or.inr ⟨h1, h2, rfl, rfl⟩⟩
          · rcases Decidable.em (a = b) with hab | hab
            · simp [hab]
            · simp [hab, hca]
          · simp

/-! ### Replay of direct results -/

theorem replay_wins_append (rs : List ((Nat × Nat) × Nat)) (e : (Nat × Nat) × Nat) :
    replay_wins (rs ++ [e]) = replay_step (replay_wins rs) e := by
  unfold replay_wins
  rw [List.foldl_append]
  rfl

theorem replay_step_canon {w : Finset (Nat × Nat)} {a b winner : Nat}
    (hw : winner = a ∨ winner = b) :
    replay_step w (canonPair a b, winner) =
      if reachable w (if winner = a then b else a) winner then w
      else w ∪ closure_added w winner (if winner = a then b else a) := by
  simp only [replay_step, canonPair_loser hw]

theorem replay_step_noop {w : Finset (Nat × Nat)} (hT : TransW w) {a b winner : Nat}
    (hw : winner = a ∨ winner = b)
    (hknown : (winner, if winner = a then b else a) ∈ w ∨
      reachable w (if winner = a then b else a) winner) :
    replay_step w (canonPair a b, winner) = w := by
  rw [replay_step_canon hw]
  rcases Decidable.em (reachable w (if winner = a then b else a) winner) with h | h
  · rw [if_pos h]
  · rw [if_neg h]
    rcases hknown with hk | hk
    · exact closure_union_noop hT hk
    · exact absurd hk h

theorem rebuild_foldl_fst (rs : List ((Nat × Nat) × Nat))
    (t : Finset (Nat × Nat) × (Nat → Nat) × Finset (Nat × Nat)) :
    (rs.foldl rebuild_step t).1 = rs.foldl replay_step t.1 := by
  induction rs generalizing t with
  | nil => rfl
  | cons e rest ih =>
    rw [List.foldl_cons, List.foldl_cons, ih]
    congr 1
    unfold rebuild_step replay_step
    rcases Decidable.em (reachable t.1 (if e.2 = e.1.1 then e.1.2 else e.1.1) e.2) with h | h
    · simp only [h, if_true]
    · simp only [h, if_false]
      rfl

theorem canonPair_winner_loser {a b winner : Nat} (hw : winner = a ∨ winner = b) :
    canonPair winner (if winner = a then b else a) = canonPair a b := by
  rcases hw with hw | hw
  · subst hw; simp
  · subst hw
    rcases Decidable.em (winner = a) with h | h
    · subst h; simp
    · simp only [h, if_false]
      exact canonPair_comm _ _

/-- The new direct edge itself is always part of the inserted closure set. -/
theorem edge_mem_closure_added {w : Finset (Nat × Nat)} (hT : TransW w)
    {u v : Nat} (hne : v ≠ u) (hnw : (u, v) ∉ w) :
    (u, v) ∈ closure_added w u v := by
  unfold closure_added
  rw [Finset.mem_filter, Finset.mem_product]
  refine ⟨⟨?_, ?_⟩, fun h => hne h.symm, hnw⟩
  · exact (collect_ancestors_char hT u u).2 (Or.inl rfl)
  · exact (collect_descendants_char hT v v).2 (Or.inl rfl)

/-! ### Preservation of the session invariant -/

theorem record_choice_SInv {s s' : Session} {p : Option (Nat × Nat)} {winner : Nat}
    (hs : SInv s) (hrec : record_choice s p winner = Except.ok s') : SInv s' := by
  obtain ⟨hI, hA, hT, hW, hF⟩ := hs
  match p with
  | none =>
    simp only [record_choice, Except.ok.injEq] at hrec
    subst hrec
    exact ⟨hI, hA, hT, hW, hF⟩
  | some (a, b) =>
    rcases Decidable.em (winner = a ∨ winner = b) with hw | hw
    · rcases Decidable.em ((rlookup s.results (canonPair a b)).isSome = true) with hsome | hsome
      · simp only [record_choice, not_not_intro hw, not_true, if_false, hsome, if_true,
          Except.ok.injEq] at hrec
        subst hrec
        exact ⟨hI, hA, hT, hW, hF⟩
      · have hres : rlookup s.results (canonPair a b) = none :=
          Option.not_isSome_iff_eq_none.1 hsome
        obtain ⟨hcc, hmax, hrs, hch, hcm, hia, hib, hlp, hbr⟩ :=
          record_ok_inv hw hres hrec
        rcases hbr with ⟨hknown, hwins, hwc, hunk⟩ | ⟨h1, h2, hwins, hunk⟩
        · -- recording branch without graph change
          refine ⟨hwins ▸ hI, hwins ▸ hA, hwins ▸ hT, ?_, ?_⟩
          · rw [hrs, replay_wins_append, hW, replay_step_noop hT hw hknown, hwins]
          · intro x y hxy hyN
            rw [hcc] at hyN
            rw [hunk, Finset.mem_erase, hrs, hwins]
            rcases Decidable.em ((x, y) = canonPair a b) with hk | hk
            · constructor
              · rintro ⟨hne, _⟩
                exact absurd hk hne
              · rintro ⟨hl, _, _⟩
                rw [hk, rlookup_append_self hres] at hl
                exact Option.noConfusion hl
            · rw [rlookup_append_of_ne hk]
              constructor
              · rintro ⟨_, hx⟩
                exact (hF x y hxy hyN).1 hx
              · intro hx
                exact ⟨hk, (hF x y hxy hyN).2 hx⟩
        · -- clean insertion with closure propagation
          have hne : (if winner = a then b else a) ≠ winner := fun h => h2 (Or.inl h)
          have hlw : ((if winner = a then b else a), winner) ∉ s.wins :=
            fun h => h2 (Or.inr h)
          refine ⟨hwins ▸ closure_union_irrefl hI hT _ _,
            hwins ▸ closure_union_asym hT hA hlw hne,
            hwins ▸ closure_union_trans hT hlw hne, ?_, ?_⟩
          · rw [hrs, replay_wins_append, hW, replay_step_canon hw, if_neg h2, hwins]
          · intro x y hxy hyN
            rw [hcc] at hyN
            have hedge : (winner, if winner = a then b else a) ∈
                closure_added s.wins winner (if winner = a then b else a) :=
              edge_mem_closure_added hT hne h1
            rw [hunk, Finset.mem_sdiff, hrs, hwins, mem_image_canon hxy,
              Finset.mem_union, Finset.mem_union]
            rcases Decidable.em ((x, y) = canonPair a b) with hk | hk
            · constructor
              · rintro ⟨_, himg⟩
                exfalso
                apply himg
                have hcl : canonPair winner (if winner = a then b else a) = (x, y) := by
                  rw [canonPair_winner_loser hw, ← hk]
                rcases (canonPair_eq_iff hxy).1 hcl with ⟨hu, hv⟩ | ⟨hu, hv⟩
                · left
                  have he : (winner, if winner = a then b else a) = (x, y) :=
                    Prod.ext hu hv
                  exact he ▸ hedge
                · right
                  have he : (winner, if winner = a then b else a) = (y, x) :=
                    Prod.ext hu hv
                  exact he ▸ hedge
              · rintro ⟨hl, _, _⟩
                rw [hk, rlookup_append_self hres] at hl
                exact Option.noConfusion hl
            · rw [rlookup_append_of_ne hk]
              have hiff := hF x y hxy hyN
              constructor
              · rintro ⟨hx, himg⟩
                rcases hiff.1 hx with ⟨hl, hw1, hw2⟩
                refine ⟨hl, ?_, ?_⟩
                · rintro (hc | hc)
                  · exact hw1 hc
                  · exact himg (Or.inl hc)
                · rintro (hc | hc)
                  · exact hw2 hc
                  · exact himg (Or.inr hc)
              · rintro ⟨hl, hn1, hn2⟩
                refine ⟨hiff.2 ⟨hl, fun hc => hn1 (Or.inl hc),
                  fun hc => hn2 (Or.inl hc)⟩, ?_⟩
                rintro (hc | hc)
                · exact hn1 (Or.inr hc)
                · exact hn2 (Or.inr hc)
    · simp only [record_choice] at hrec
      rw [if_pos hw] at hrec
      exact Except.noConfusion hrec

theorem SInv_init (N : Nat) (M : Option Nat) : SInv (create_new N M) := by
  refine ⟨fun a h => ?_, fun a b h => ?_, fun a b c h => ?_, rfl, ?_⟩
  · exact absurd h (Finset.not_mem_empty _)
  · exact absurd h (Finset.not_mem_empty _)
  · exact absurd h (Finset.not_mem_empty _)
  · intro a b hab hbN
    simp only [create_new, session_init, Bool.false_eq_true, false_and, if_false,
      Finset.mem_filter, Finset.mem_product, Finset.mem_range]
    constructor
    · intro _
      exact ⟨rfl, Finset.not_mem_empty _, Finset.not_mem_empty _⟩
    · intro _
      exact ⟨⟨Nat.lt_trans hab hbN, hbN⟩, hab⟩

theorem run_choices_SInv {s0 s : Session} {cs : List (Option (Nat × Nat) × Nat)}
    (hs : SInv s0) (hrun : run_choices s0 cs = Except.ok s) : SInv s := by
  induction cs generalizing s0 with
  | nil =>
    simp only [run_choices, Except.ok.injEq] at hrun
    subst hrun
    exact hs
  | cons c rest ih =>
    simp only [run_choices] at hrun
    rcases hc : record_choice s0 c.1 c.2 with e | s1
    · rw [hc] at hrun
      exact Except.noConfusion hrun
    · rw [hc] at hrun
      exact ih (record_choice_SInv hs hc) hrun

/-- `characters_count` is never mutated by `record_choice` runs. -/
theorem run_choices_count {s0 s : Session} {cs : List (Option (Nat × Nat) × Nat)}
    (hrun : run_choices s0 cs = Except.ok s) :
    s.characters_count = s0.characters_count := by
  induction cs generalizing s0 with
  | nil =>
    simp only [run_choices, Except.ok.injEq] at hrun
    subst hrun
    rfl
  | cons c rest ih =>
    simp only [run_choices] at hrun
    rcases hc : record_choice s0 c.1 c.2 with e | s1
    · rw [hc] at hrun
      exact Except.noConfusion hrun
    · rw [hc] at hrun
      rw [ih hrun]
      match c, hc with
      | (none, w), hc =>
        simp only [record_choice, Except.ok.injEq] at hc
        rw [← hc]
      | (some (x, y), w), hc =>
        rcases Decidable.em (w = x ∨ w = y) with hw | hw
        · rcases Decidable.em ((rlookup s0.results (canonPair x y)).isSome = true) with
            hsome | hsome
          · simp only [record_choice, not_not_intro hw, not_true, if_false, hsome,
              if_true, Except.ok.injEq] at hc
            rw [← hc]
          · have hres : rlookup s0.results (canonPair x y) = none :=
              Option.not_isSome_iff_eq_none.1 hsome
            exact (record_ok_inv hw hres hc).1
        · simp only [record_choice] at hc
          rw [if_pos hw] at hc
          exact Except.noConfusion hc

/-- C4 (amended): an effective `record_choice` (winner in the pair, pair not
yet answered) followed by `undo_last_choice` restores `comparisons_made`, the
derived graph, the direct results and the history exactly; the frontier is
not restored in general (see the counterexample). -/
theorem C4_undo_partial_inverse (N : Nat) (M : Option Nat)
    (cs : List (Option (Nat × Nat) × Nat)) (s : Session)
    (hrun : run_choices (create_new N M) cs = Except.ok s)
    (a b winner : Nat) (hw : winner = a ∨ winner = b)
    (hres : rlookup s.results (canonPair a b) = none)
    (s' : Session) (hrec : record_choice s (some (a, b)) winner = Except.ok s') :
    ∃ s'', undo_last_choice s' = Except.ok (true, s'') ∧
      s''.comparisons_made = s.comparisons_made ∧
      s''.wins = s.wins ∧
      s''.results = s.results ∧
      s''.choice_history = s.choice_history := by
  obtain ⟨_, _, _, hW, _⟩ := run_choices_SInv (SInv_init N M) hrun
  obtain ⟨hcc, hmax, hrs, hch, hcm, hia, hib, hlp, hbr⟩ := record_ok_inv hw hres hrec
  obtain ⟨mn, mx, hcp⟩ : ∃ mn mx, canonPair a b = (mn, mx) := ⟨_, _, rfl⟩
  have hmn_mx : (mn = a ∧ mx = b) ∨ (mn = b ∧ mx = a) := by
    unfold canonPair at hcp
    rcases Decidable.em (a < b) with h | h
    · rw [if_pos h] at hcp
      exact Or.inl ⟨(Prod.ext_iff.1 hcp).1.symm, (Prod.ext_iff.1 hcp).2.symm⟩
    · rw [if_neg h] at hcp
      exact Or.inr ⟨(Prod.ext_iff.1 hcp).1.symm, (Prod.ext_iff.1 hcp).2.symm⟩
  have himn : (s'.comp_counts mn).isSome = true := by
    rcases hmn_mx with ⟨h, _⟩ | ⟨h, _⟩
    · rw [h]; exact hia
    · rw [h]; exact hib
  have himx : (s'.comp_counts mx).isSome = true := by
    rcases hmn_mx with ⟨_, h⟩ | ⟨_, h⟩
    · rw [h]; exact hib
    · rw [h]; exact hia
  obtain ⟨v1, hv1⟩ := Option.isSome_iff_exists.1 himn
  have hcc1 : ddecr s'.comp_counts mn =
      Except.ok (fun j => if j = mn then some (v1 - 1) else s'.comp_counts j) := by
    simp only [ddecr, hv1]
  have himx1 : ((fun j => if j = mn then some (v1 - 1) else s'.comp_counts j) mx).isSome
      = true := by
    rcases Decidable.em (mx = mn) with h | h
    · simp [h]
    · simpa [h] using himx
  obtain ⟨v2, hv2⟩ := Option.isSome_iff_exists.1 himx1
  have hcc2 : ddecr (fun j => if j = mn then some (v1 - 1) else s'.comp_counts j) mx =
      Except.ok (fun j => if j = mx then some (v2 - 1)
        else if j = mn then some (v1 - 1) else s'.comp_counts j) := by
    simp only [ddecr]
    simp only at hv2
    rw [hv2]
  have hlast : s'.choice_history.getLast? = some ((mn, mx), winner) := by
    rw [hch, hcp]
    exact List.getLast?_concat _
  have hres1 : s'.results.filter (fun e => decide (e.1 ≠ (mn, mx))) = s.results := by
    rw [hrs, List.filter_append]
    rw [hcp] at hres
    rw [filter_of_rlookup_none hres, hcp]
    simp
  simp only [undo_last_choice, hlast, hcc1, hcc2]
  refine ⟨_, rfl, ?_, ?_, ?_, ?_⟩
  · show s'.comparisons_made - 1 = s.comparisons_made
    rw [hcm]
    exact add_sub_cancel_right _ _
  · show (rebuild_from_direct s'.characters_count
      (s'.results.filter (fun e => decide (e.1 ≠ (mn, mx)))) s'.unknown_pairs).1 = s.wins
    rw [hres1]
    unfold rebuild_from_direct
    rw [rebuild_foldl_fst]
    exact hW
  · exact hres1
  · show s'.choice_history.dropLast = s.choice_history
    rw [hch]
    exact List.dropLast_concat

/-! ### Claim theorems -/

/-- C1: acyclicity invariant — for every sequence of `record_choice` calls
starting from a fresh session, the derived relation set `wins` never contains
both `(a, b)` and `(b, a)`. -/
theorem C1_acyclicity (N : Nat) (M : Option Nat)
    (cs : List (Option (Nat × Nat) × Nat)) (s : Session)
    (hrun : run_choices (create_new N M) cs = Except.ok s) :
    ∀ a b : Nat, ¬((a, b) ∈ s.wins ∧ (b, a) ∈ s.wins) := by
  rintro a b ⟨h1, h2⟩
  exact (run_choices_SInv (SInv_init N M) hrun).2.1 a b h1 h2

theorem C1_acyclicity_witness :
    ¬(((0 : Nat), (1 : Nat)) ∈ sA.wins ∧ ((1 : Nat), (0 : Nat)) ∈ sA.wins) :=
  C1_acyclicity 3 (some 3) csA sA rfl 0 1

/-- C2: closure completeness — after any sequence of `record_choice` calls
the `wins` relation is transitively closed; in particular in Scenario A
(`N = 3`, choices `(0,1) → 0` then `(1,2) → 1`) the derived pair `(0, 2)`
holds and has left the frontier although it was never directly asked. -/
theorem C2_closure_completeness :
    (∀ (N : Nat) (M : Option Nat) (cs : List (Option (Nat × Nat) × Nat))
      (s : Session), run_choices (create_new N M) cs = Except.ok s →
      ∀ a b c : Nat, (a, b) ∈ s.wins → (b, c) ∈ s.wins → (a, c) ∈ s.wins) ∧
    (run_choices sessionA0 csA = Except.ok sA ∧
     (0, 2) ∈ sA.wins ∧ rlookup sA.results (0, 2) = none ∧
     (0, 2) ∉ sA.unknown_pairs) := by
  refine ⟨?_, rfl, by decide, by decide, by decide⟩
  intro N M cs s hrun a b c h1 h2
  exact (run_choices_SInv (SInv_init N M) hrun).2.2.1 a b c h1 h2

/-- C3: conflict absorption — when a pair without a direct result is answered
against an already-derived relation `wins(loser, winner)`, no edge is
inserted, yet the direct result, comparison count, history, learning model
and frontier removal all happen. -/
theorem C3_conflict_absorption (s : Session) (a b winner : Nat)
    (hw : winner = a ∨ winner = b)
    (hres : rlookup s.results (canonPair a b) = none)
    (hconf : ((if winner = a then b else a), winner) ∈ s.wins)
    (s' : Session) (hrec : record_choice s (some (a, b)) winner = Except.ok s') :
    s'.wins = s.wins ∧
    s'.results = s.results ++ [(canonPair a b, winner)] ∧
    s'.comparisons_made = s.comparisons_made + 1 ∧
    s'.choice_history = s.choice_history ++ [(canonPair a b, winner)] ∧
    s'.learned_preferences =
      learn_from_choice s.characters_count s.learned_preferences
        (canonPair a b) winner ∧
    s'.unknown_pairs = s.unknown_pairs.erase (canonPair a b) := by
  obtain ⟨_, _, hrs, hch, hcm, _, _, hlp, hbr⟩ := record_ok_inv hw hres hrec
  rcases hbr with ⟨_, hwins, _, hunk⟩ | ⟨_, h2, _, _⟩
  · exact ⟨hwins, hrs, hcm, hch, hlp, hunk⟩
  · exact absurd
      (show reachable s.wins (if winner = a then b else a) winner from Or.inr hconf)
      h2

theorem C3_conflict_absorption_witness :
    (sB.wins = sA.wins ∧
     sB.results = sA.results ++ [(canonPair 0 2, 2)] ∧
     sB.comparisons_made = sA.comparisons_made + 1 ∧
     sB.choice_history = sA.choice_history ++ [(canonPair 0 2, 2)] ∧
     sB.learned_preferences =
       learn_from_choice sA.characters_count sA.learned_preferences
         (canonPair 0 2) 2 ∧
     sB.unknown_pairs = sA.unknown_pairs.erase (canonPair 0 2)) ∧
    ((2, 0) ∉ sB.wins ∧ sB.comparisons_made = 3 ∧ is_completed sB = true) :=
  ⟨C3_conflict_absorption sA 0 2 2 (Or.inr rfl) (by decide) (by decide) sB rfl,
   by decide, by decide, by decide⟩

theorem C4_undo_partial_inverse_witness :
    ∃ s'', undo_last_choice u2 = Except.ok (true, s'') ∧
      s''.comparisons_made = u1.comparisons_made ∧
      s''.wins = u1.wins ∧
      s''.results = u1.results ∧
      s''.choice_history = u1.choice_history :=
  C4_undo_partial_inverse 3 none [(some (0, 1), 0)] u1 rfl 1 2 1 (Or.inl rfl)
    (by decide) u2 rfl

/-- C4 counterexample: undo restores `comparisons_made` and the graph but not
the frontier — after recording `(0,1) → 0`, `(1,2) → 1` and undoing, the pair
`(0, 2)` (removed as a derived consequence of the undone choice) is not put
back into the frontier, so the frontier differs from its pre-call value. -/
theorem C4_undo_counterexample :
    run_choices sessionU0 [(some (0, 1), 0)] = Except.ok u1 ∧
    record_choice u1 (some (1, 2)) 1 = Except.ok u2 ∧
    undo_last_choice u2 = Except.ok (true, u3) ∧
    u3.comparisons_made = u1.comparisons_made ∧
    u3.wins = u1.wins ∧
    (0, 2) ∈ u1.unknown_pairs ∧ (0, 2) ∉ u3.unknown_pairs ∧
    u3.unknown_pairs ≠ u1.unknown_pairs :=
  ⟨rfl, rfl, rfl, by decide, by decide, by decide, by decide, by decide⟩

/-- C5 (amended): at every state reached from a fresh default-mode session by
`record_choice` calls alone, an in-range pair is in the frontier iff it has
neither a direct result nor a derived relation. -/
theorem C5_frontier_disjointness_record_only (N : Nat) (M : Option Nat)
    (cs : List (Option (Nat × Nat) × Nat)) (s : Session)
    (hrun : run_choices (create_new N M) cs = Except.ok s)
    (a b : Nat) (hab : a < b) (hbN : b < s.characters_count) :
    ((a, b) ∈ s.unknown_pairs ↔
      rlookup s.results (a, b) = none ∧ (a, b) ∉ s.wins ∧ (b, a) ∉ s.wins) :=
  (run_choices_SInv (SInv_init N M) hrun).2.2.2.2 a b hab hbN

theorem C5_frontier_disjointness_record_only_witness :
    ((0, 2) ∈ sA.unknown_pairs ↔
      rlookup sA.results (0, 2) = none ∧ (0, 2) ∉ sA.wins ∧ (2, 0) ∉ sA.wins) :=
  C5_frontier_disjointness_record_only 3 (some 3) csA sA rfl 0 2 (by decide)
    (by decide)

/-- C5 counterexample: after record, record, undo, the pair `(0, 2)` has no
direct result and no derived relation in either direction, yet it is not in
the frontier — the disjointness iff fails at an API-reachable state. -/
theorem C5_frontier_counterexample :
    run_choices sessionU0 [(some (0, 1), 0)] = Except.ok u1 ∧
    record_choice u1 (some (1, 2)) 1 = Except.ok u2 ∧
    undo_last_choice u2 = Except.ok (true, u3) ∧
    (0, 2) ∉ u3.unknown_pairs ∧
    rlookup u3.results (0, 2) = none ∧
    (0, 2) ∉ u3.wins ∧ (2, 0) ∉ u3.wins :=
  ⟨rfl, rfl, rfl, by decide, by decide, by decide, by decide⟩

/-- C6: idempotence — a first effective `record_choice` on an unanswered pair
adds exactly one comparison, and a second call on the same pair (any valid
winner) returns the state unchanged. -/
theorem C6_repeated_choice_idempotent (s : Session) (a b w1 w2 : Nat)
    (hw1 : w1 = a ∨ w1 = b) (hw2 : w2 = a ∨ w2 = b)
    (hres : rlookup s.results (canonPair a b) = none)
    (s1 : Session) (hrec1 : record_choice s (some (a, b)) w1 = Except.ok s1) :
    record_choice s1 (some (a, b)) w2 = Except.ok s1 ∧
      s1.comparisons_made = s.comparisons_made + 1 := by
  obtain ⟨_, _, hrs, _, hcm, _, _, _, _⟩ := record_ok_inv hw1 hres hrec1
  have hsome : (rlookup s1.results (canonPair a b)).isSome = true := by
    rw [hrs, rlookup_append_self hres]
    rfl
  refine ⟨?_, hcm⟩
  simp only [record_choice, not_not_intro hw2, not_true, if_false, hsome, if_true]

theorem C6_repeated_choice_idempotent_witness :
    record_choice u1 (some (0, 1)) 1 = Except.ok u1 ∧
      u1.comparisons_made = sessionU0.comparisons_made + 1 :=
  C6_repeated_choice_idempotent sessionU0 0 1 0 1 (Or.inl rfl) (Or.inr rfl) rfl
    u1 rfl

/-- C7 (amended): with a budget `M` set, `is_completed` is true exactly when
the budget is used up or the frontier is empty; hence it is true whenever
`comparisons_made ≥ M`, and never earlier unless the frontier is empty. -/
theorem C7_budget_termination (s : Session) (M : Nat)
    (hM : s.max_comparisons = some M) :
    is_completed s = true ↔
      (s.comparisons_made ≥ (M : Int) ∨ s.unknown_pairs = ∅) := by
  unfold is_completed
  rw [hM]
  rcases Decidable.em (s.comparisons_made ≥ (M : Int)) with h | h
  · simp [h]
  · simp [h]

theorem C7_budget_termination_witness :
    (is_completed sB = true ↔
      (sB.comparisons_made ≥ ((3 : Nat) : Int) ∨ sB.unknown_pairs = ∅)) :=
  C7_budget_termination sB 3 (by decide)

/-- C7 counterexample: with `N = 2` and budget 3, one recorded choice empties
the frontier and completes the session at `comparisons_made = 1 < 3` — so
`is_completed` can become true strictly before the budget is reached. -/
theorem C7_budget_counterexample :
    (create_new 2 (some 3)).max_comparisons = some 3 ∧
    run_choices (create_new 2 (some 3)) [(some (0, 1), 0)] = Except.ok sC7 ∧
    sC7.comparisons_made < 3 ∧
    is_completed sC7 = true :=
  ⟨rfl, rfl, by decide, by decide⟩

/-- C9: `InvalidWinner` rejection — a winner outside the pair makes
`record_choice` fail with the error before any state is produced. -/
theorem C9_invalid_winner (s : Session) (a b winner : Nat)
    (hwa : winner ≠ a) (hwb : winner ≠ b) :
    record_choice s (some (a, b)) winner = Except.error RecErr.invalidWinner := by
  have hw : ¬(winner = a ∨ winner = b) := by
    rintro (h | h)
    · exact hwa h
    · exact hwb h
  simp only [record_choice]
  rw [if_pos hw]

theorem C9_invalid_winner_witness :
    record_choice fresh3 (some (0, 1)) 2 = Except.error RecErr.invalidWinner ∧
      fresh3.comparisons_made = 0 :=
  ⟨C9_invalid_winner fresh3 0 1 2 (by decide) (by decide), rfl⟩

/-- C10 (amended): query methods degrade to the neutral 0.5 on out-of-range
or equal indices — `get_learned_preference` is total there. -/
theorem C10_query_neutral (s : Session) (a b : Nat)
    (h : ¬(a < s.characters_count ∧ b < s.characters_count) ∨ a = b) :
    get_learned_preference s a b = 1 / 2 := by
  unfold get_learned_preference
  rcases h with h | h
  · rw [if_pos h]
  · rcases Decidable.em (¬(a < s.characters_count ∧ b < s.characters_count))
      with h' | h'
    · rw [if_pos h']
    · rw [if_neg h', if_pos h]

theorem C10_query_neutral_witness :
    get_learned_preference (create_new 3 none) 5 1 = 1 / 2 :=
  C10_query_neutral (create_new 3 none) 5 1 (Or.inl (by decide))

/-- C10 counterexample: `record_choice` is not total on out-of-range indices —
on a fresh 3-item session, `record_choice((0, 5), 0)` hits
`comp_counts[5] += 1` and raises `KeyError` instead of a defined response. -/
theorem C10_record_choice_raises :
    record_choice (create_new 3 none) (some (0, 5)) 0 =
      Except.error RecErr.keyError := rfl

/-- Unfolding of the descending-lexicographic comparison used by
`calculate_scores`. -/
theorem descGe_iff (x y : Nat × Nat) :
    descGe x y = true ↔ (y.1 < x.1 ∨ (x.1 = y.1 ∧ y.2 ≤ x.2)) := by
  simp [descGe]

/-- C8 (amended): `calculate_scores` returns a permutation of the
`(win_count, index)` tuples sorted by descending win count, ties broken by
descending original index (the `sorted(..., reverse=True)` order). -/
theorem C8_ranking_order (s : Session) :
    (calculate_scores s).Perm
      ((List.range s.characters_count).map (fun idx => (s.win_counts idx, idx))) ∧
    (calculate_scores s).Sorted
      (fun x y => y.1 < x.1 ∨ (x.1 = y.1 ∧ y.2 ≤ x.2)) := by
  constructor
  · exact List.mergeSort_perm _ _
  · have htrans : ∀ x y z : Nat × Nat,
        descGe x y = true → descGe y z = true → descGe x z = true := by
      intro x y z hxy hyz
      rw [descGe_iff] at hxy hyz ⊢
      rcases hxy with h1 | ⟨h1, h1'⟩
      · rcases hyz with h2 | ⟨h2, h2'⟩
        · exact Or.inl (Nat.lt_trans h2 h1)
        · exact Or.inl (h2 ▸ h1)
      · rcases hyz with h2 | ⟨h2, h2'⟩
        · exact Or.inl (h1 ▸ h2)
        · exact Or.inr ⟨h1.trans h2, Nat.le_trans h2' h1'⟩
    have htotal : ∀ x y : Nat × Nat, (descGe x y || descGe y x) = true := by
      intro x y
      rw [Bool.or_eq_true, descGe_iff, descGe_iff]
      rcases Nat.lt_trichotomy x.1 y.1 with h | h | h
      · exact Or.inr (Or.inl h)
      · rcases Nat.le_total y.2 x.2 with h' | h'
        · exact Or.inl (Or.inr ⟨h, h'⟩)
        · exact Or.inr (Or.inr ⟨h.symm, h'⟩)
      · exact Or.inl (Or.inl h)
    have hs := List.sorted_mergeSort htrans htotal
      ((List.range s.characters_count).map (fun idx => (s.win_counts idx, idx)))
    exact hs.imp (fun h => (descGe_iff _ _).1 h)

unseal List.merge List.mergeSort in
/-- C8 counterexample: on a fresh two-item session both items have zero wins,
and the ranking lists item 1 before item 0 — ties are broken by descending
index, not ascending original index. -/
theorem C8_tie_break_counterexample :
    calculate_scores (create_new 2 none) = [(0, 1), (0, 0)] ∧
    calculate_scores (create_new 2 none) ≠ [(0, 0), (0, 1)] := by
  constructor
  · rfl
  · intro h
    have h2 : calculate_scores (create_new 2 none) = [(0, 1), (0, 0)] := rfl
    rw [h2] at h
    simp at h
